import Mathlib

/-!
Shallow embedding of the concurrent file-finder pipeline in src/main.cpp
(repository PearsonWhite/file_finder).

Strings are modelled as lists of characters; thread identities as natural
numbers.  The stateful components (SearchResultContainer, Processor,
PathFinder) are modelled as pure functions on explicit state; the
concurrency-structure facts (which threads the coordinator joins, which
statements of SearchResultContainer::dump run under the store mutex) are
modelled as explicit traces of atomic steps read off the source.
-/

/-- Character strings, as used for filenames and target substrings. -/
abbrev Str := List Char

/-- Models the prefix test performed position by position by
std::string::find while it scans the haystack: does the pattern occur at
the very start of the haystack? -/
def startsWith : Str → Str → Bool
  | [], _ => true
  | _ :: _, [] => false
  | p :: ps, h :: hs => p == h && startsWith ps hs

/-- Models `hay.find(pat) \x7b=\x7d std::string::npos` from
Processor::process (src/main.cpp line 180): std::string::find scans
positions 0..hay.size() and succeeds at the first position where the
pattern matches; the empty pattern matches at position 0 (and at the end
of an empty haystack). -/
def containsTarget : Str → Str → Bool
  | [], pat => startsWith pat []
  | c :: hs, pat => startsWith pat (c :: hs) || containsTarget hs pat

/-- One filesystem entry as produced by fs::recursive_directory_iterator.
`filename` models entry.path().filename() (the final path component);
`isDirectory` models entry.is_directory(). -/
structure DirEntry where
  path : Str
  filename : Str
  isDirectory : Bool
deriving DecidableEq

/-- Models struct SearchResult (src/main.cpp lines 80-88): the matched
entry, the target substring, and the recording worker's thread id. -/
structure SearchResult where
  entry : DirEntry
  substring : Str
  id : Nat
deriving DecidableEq

/-- The ResultStore of SearchResultContainer (src/main.cpp line 135):
`std::unordered_map<fs::path, std::vector<ResultValue>>`, modelled as an
association list from path to the ordered vector of
(substring, thread id) values.  The list order stands for some
(unspecified) iteration order of the hash map; key uniqueness is a
property proved below, not assumed. -/
abbrev Store := List (Str × List (Str × Nat))

/-- Models SearchResultContainer::push (src/main.cpp lines 92-96):
`store[result.entry.path()].emplace_back(result.substring, result.id)` —
operator[] finds the existing key or inserts a fresh one with an empty
vector, and emplace_back appends at the end of that vector. -/
def SearchResultContainer.push (store : Store) (result : SearchResult) : Store :=
  match store with
  | [] => [(result.entry.path, [(result.substring, result.id)])]
  | (p, vs) :: rest =>
    if p = result.entry.path then
      (p, vs ++ [(result.substring, result.id)]) :: rest
    else
      (p, vs) :: SearchResultContainer.push rest result

/-- Models the effect of SearchResultContainer::dump (src/main.cpp lines
98-111) on the store: the whole store is formatted into the emitted
snapshot and `store.clear()` empties it.  Returns
(emitted snapshot, store after the dump). -/
def SearchResultContainer.dump (store : Store) : Store × Store := (store, [])

/-- State of the periodic-flush loop of SearchResultContainer::periodic_dump
(src/main.cpp lines 113-129): the store plus the elapsed wall-clock
milliseconds since the last timer reset. -/
structure FlushLoopState where
  store : Store
  elapsed : Nat
deriving DecidableEq

/-- Models one iteration of the while loop in
SearchResultContainer::periodic_dump (src/main.cpp lines 118-126): if the
elapsed time exceeds `ms` the store is dumped and the timer is reset
(`start = now()`), and in every case the loop then sleeps for
`resolution`.  Returns the next state and the snapshot emitted by this
iteration, if any. -/
def periodicDumpStep (ms resolution : Nat) (st : FlushLoopState) :
    FlushLoopState × Option Store :=
  if ms < st.elapsed then
    (FlushLoopState.mk (SearchResultContainer.dump st.store).2 resolution,
      some (SearchResultContainer.dump st.store).1)
  else
    (FlushLoopState.mk st.store (st.elapsed + resolution), none)

/-- Sequential recording of a list of pushes into the store, modelling an
arbitrary interleaving of workers' container->push calls: the store mutex
serialises the pushes into some arrival order, which is the order of the
list. -/
def recordAll (store : Store) (results : List SearchResult) : Store :=
  results.foldl SearchResultContainer.push store

/-- The vector stored under a path key (empty when the key is absent,
as for unordered_map lookup of a missing key). -/
def storeLookup : Store → Str → List (Str × Nat)
  | [], _ => []
  | (p, vs) :: rest, q => if p = q then vs else storeLookup rest q

/-- The keys of the store, in order. -/
def storeKeys (s : Store) : List Str := s.map Prod.fst

/-- Models the while loop of Processor::process (src/main.cpp lines
174-188) with its accumulator of records pushed to the container so far:
take the front entry, test `filename().find(target) \x7b=\x7d npos`, on a
match push SearchResult(entry, target, selfId), then pop.  The loop runs
until the queue is empty, all under the queue mutex.  Returns the records
pushed (in push order, appended after `pushed`) and the final queue. -/
def Processor.processLoop (target : Str) (selfId : Nat) :
    List DirEntry → List SearchResult → List SearchResult × List DirEntry
  | [], pushed => (pushed, [])
  | e :: rest, pushed =>
    Processor.processLoop target selfId rest
      (if containsTarget e.filename target then
        pushed ++ [SearchResult.mk e target selfId]
      else pushed)

/-- Models one call of Processor::process on the queue contents observed
at entry (the queue mutex is held for the whole pass, so the pass sees
exactly this queue): returns the records pushed to the container, in
order, and the queue left behind. -/
def Processor.process (target : Str) (selfId : Nat) (queue : List DirEntry) :
    List SearchResult × List DirEntry :=
  Processor.processLoop target selfId queue []

/-- The records Processor::process pushes for a given queue, stated
directly as a filter of the queue in FIFO order. -/
def matchRecords (target : Str) (selfId : Nat) (q : List DirEntry) : List SearchResult :=
  q.filterMap (fun e =>
    if containsTarget e.filename target then
      some (SearchResult.mk e target selfId)
    else none)

/-- One push performed by PathFinder::list_paths: the index of the visited
entry in traversal order, the index of the receiving Processor in
registration order, and the entry pushed. -/
structure PushEvent where
  entryIdx : Nat
  workerIdx : Nat
  entry : DirEntry
deriving DecidableEq

/-- Value of the walker's atomic should_continue flag as read at the check
for the entry with the given traversal index.  The flag is set to true at
walk start (src/main.cpp line 201) and is only ever set to false by
stop_func, monotonically: `stopAt = some k` means the reads at indices
>= k observe false, `none` means no stop is ever requested. -/
def shouldContinueAt (stopAt : Option Nat) (i : Nat) : Bool :=
  match stopAt with
  | none => true
  | some k => decide (i < k)

/-- Models the loop of PathFinder::list_paths (src/main.cpp lines
202-216), entries indexed from `i0`: per visited entry, first check
should_continue and on false return 1 ("end_find (stop)") pushing nothing
further; otherwise push the entry to every processor in registration
order if it is not a directory, and advance.  When the iterator is
exhausted, return 0 ("find end").  Returns the trace of pushes and the
return value. -/
def PathFinder.listPathsAux (n : Nat) (stopAt : Option Nat) :
    Nat → List DirEntry → List PushEvent × Int
  | _, [] => ([], 0)
  | i, e :: rest =>
    if shouldContinueAt stopAt i then
      ((if e.isDirectory then [] else (List.range n).map (fun w => PushEvent.mk i w e))
          ++ (PathFinder.listPathsAux n stopAt (i + 1) rest).1,
        (PathFinder.listPathsAux n stopAt (i + 1) rest).2)
    else ([], 1)

/-- Models PathFinder::list_paths (src/main.cpp lines 198-217) on the
sequence of entries the recursive iterator yields, with `n` registered
processors and the stop-flag behaviour `stopAt`. -/
def PathFinder.list_paths (entries : List DirEntry) (n : Nat) (stopAt : Option Nat) :
    List PushEvent × Int :=
  PathFinder.listPathsAux n stopAt 0 entries

/-- Models the value do_main returns (src/main.cpp line 409): EXIT_SUCCESS
(0), unconditionally.  The walker's return value sits in search_future,
whose value is never retrieved (search_future.get() is never called), so
it cannot influence the returned status; it is taken as an argument here
only to record that fact. -/
def do_main_return (_searchResult : Int) : Int := 0

/-- The concurrent units do_main starts: the periodic-flush thread
(src/main.cpp line 315), one processor thread per substring (line 325),
the walker thread (line 341) and the interactive command-reader thread
(line 366). -/
inductive ConcUnit where
  | searchThread : ConcUnit
  | processorThread : Nat → ConcUnit
  | dumpThread : ConcUnit
  | uiThread : ConcUnit
deriving DecidableEq

/-- A thread-lifecycle operation of the shutdown sequence: join blocks
until the unit has terminated; detach returns immediately, without
waiting for the unit. -/
inductive ThreadOp where
  | joinOp : ConcUnit → ThreadOp
  | detachOp : ConcUnit → ThreadOp
deriving DecidableEq

/-- The units do_main starts, in spawn order, with `n` filter workers. -/
def startedUnits (n : Nat) : List ConcUnit :=
  ConcUnit.dumpThread ::
    ((List.range n).map ConcUnit.processorThread ++
      [ConcUnit.searchThread, ConcUnit.uiThread])

/-- The tail of do_main after stop_func (src/main.cpp lines 396-401):
search_thread.join(); join every processor thread; dump_thread.join();
ui_thread.detach(). -/
def shutdownSequence (n : Nat) : List ThreadOp :=
  ThreadOp.joinOp ConcUnit.searchThread ::
    ((List.range n).map (fun i => ThreadOp.joinOp (ConcUnit.processorThread i)) ++
      [ThreadOp.joinOp ConcUnit.dumpThread, ThreadOp.detachOp ConcUnit.uiThread])

/-- The units whose termination is guaranteed to have been observed when
the sequence of operations has completed: exactly the joined ones
(std::thread::join returns only after the thread has terminated;
std::thread::detach waits for nothing). -/
def joinedUnits (ops : List ThreadOp) : List ConcUnit :=
  ops.filterMap (fun op =>
    match op with
    | ThreadOp.joinOp u => some u
    | ThreadOp.detachOp _ => none)

/-- The atomic statements of SearchResultContainer::dump (src/main.cpp
lines 98-111), in program order: the scoped_lock on store_mutex is
acquired at function entry (line 99), the snapshot string is formatted
(lines 101-107), the store is cleared (line 108), the snapshot is written
to std::cout (lines 109-110), and the lock is released at scope exit
(line 111). -/
inductive DumpStep where
  | acquireStoreLock : DumpStep
  | formatSnapshot : DumpStep
  | clearStore : DumpStep
  | emitSnapshot : DumpStep
  | releaseStoreLock : DumpStep
deriving DecidableEq

/-- The statement trace of SearchResultContainer::dump. -/
def dumpTrace : List DumpStep :=
  [DumpStep.acquireStoreLock, DumpStep.formatSnapshot, DumpStep.clearStore,
    DumpStep.emitSnapshot, DumpStep.releaseStoreLock]

/-- The steps of a trace executed while the store mutex is held, given
whether it is held before the first step. -/
def stepsUnderLock : List DumpStep → Bool → List DumpStep
  | [], _ => []
  | DumpStep.acquireStoreLock :: rest, _ => stepsUnderLock rest true
  | DumpStep.releaseStoreLock :: rest, _ => stepsUnderLock rest false
  | st :: rest, held => (if held then [st] else []) ++ stepsUnderLock rest held

/-- Strict program-order precedence the walker's push trace is proved to
satisfy: earlier entry, or the same entry and an earlier-registered
worker. -/
def lexBefore (a b : PushEvent) : Prop :=
  a.entryIdx < b.entryIdx ∨ (a.entryIdx = b.entryIdx ∧ a.workerIdx < b.workerIdx)

/-! ## String containment: std::string::find versus mathematical substring -/

lemma startsWith_eq_true_iff (p : Str) :
    ∀ h : Str, startsWith p h = true ↔ ∃ t, h = p ++ t := by
  induction p with
  | nil => intro h; simp [startsWith]
  | cons c ps ih =>
    intro h
    cases h with
    | nil => simp [startsWith]
    | cons d hs =>
      rw [startsWith, Bool.and_eq_true, beq_iff_eq, ih hs]
      constructor
      · rintro ⟨rfl, t, rfl⟩
        exact ⟨t, by rw [List.cons_append]⟩
      · rintro ⟨t, ht⟩
        rw [List.cons_append] at ht
        injection ht with h1 h2
        exact ⟨h1.symm, t, h2⟩

lemma containsTarget_eq_true_iff (h p : Str) :
    containsTarget h p = true ↔ ∃ u v, h = u ++ p ++ v := by
  induction h with
  | nil =>
    rw [containsTarget, startsWith_eq_true_iff]
    constructor
    · rintro ⟨t, ht⟩
      exact ⟨[], t, by simpa using ht⟩
    · rintro ⟨u, v, huv⟩
      rcases List.append_eq_nil.mp huv.symm with ⟨hup, hv⟩
      rcases List.append_eq_nil.mp hup with ⟨hu, hp⟩
      exact ⟨[], by simp [hp]⟩
  | cons c hs ih =>
    rw [containsTarget, Bool.or_eq_true, startsWith_eq_true_iff, ih]
    constructor
    · rintro (⟨t, ht⟩ | ⟨u, v, huv⟩)
      · exact ⟨[], t, by simpa using ht⟩
      · exact ⟨c :: u, v, by simp [huv]⟩
    · rintro ⟨u, v, huv⟩
      cases u with
      | nil => exact Or.inl ⟨v, by simpa using huv⟩
      | cons c2 u2 =>
        rw [List.cons_append, List.cons_append] at huv
        injection huv with h1 h2
        exact Or.inr ⟨u2, v, h2⟩

lemma containsTarget_nil_right (f : Str) : containsTarget f [] = true := by
  cases f with
  | nil => rfl
  | cons c hs => rw [containsTarget]; rfl

/-! ## Processor: drain pass characterisation -/

lemma Processor.processLoop_eq (target : Str) (selfId : Nat) :
    ∀ (q : List DirEntry) (acc : List SearchResult),
      Processor.processLoop target selfId q acc
        = (acc ++ matchRecords target selfId q, []) := by
  intro q
  induction q with
  | nil => intro acc; simp [Processor.processLoop, matchRecords]
  | cons e rest ih =>
    intro acc
    cases hc : containsTarget e.filename target with
    | true =>
      simp [Processor.processLoop, matchRecords, List.filterMap_cons, hc, ih]
    | false =>
      simp [Processor.processLoop, matchRecords, List.filterMap_cons, hc, ih]

lemma Processor.process_eq (target : Str) (selfId : Nat) (q : List DirEntry) :
    Processor.process target selfId q = (matchRecords target selfId q, []) := by
  rw [Processor.process, Processor.processLoop_eq]
  simp

lemma matchRecords_map_entry (target : Str) (selfId : Nat) (q : List DirEntry) :
    (matchRecords target selfId q).map (fun r => r.entry)
      = q.filter (fun e => containsTarget e.filename target) := by
  induction q with
  | nil => rfl
  | cons e rest ih =>
    cases hc : containsTarget e.filename target with
    | true =>
      simpa [matchRecords, List.filterMap_cons, List.filter_cons, hc] using ih
    | false =>
      simpa [matchRecords, List.filterMap_cons, List.filter_cons, hc] using ih

lemma mem_matchRecords (target : Str) (selfId : Nat) (e : DirEntry) (q : List DirEntry) :
    SearchResult.mk e target selfId ∈ matchRecords target selfId q
      ↔ e ∈ q ∧ containsTarget e.filename target = true := by
  rw [matchRecords, List.mem_filterMap]
  constructor
  · rintro ⟨a, ha, hfa⟩
    by_cases hc : containsTarget a.filename target = true
    · rw [if_pos hc] at hfa
      have hae : a = e := congrArg SearchResult.entry (Option.some.inj hfa)
      subst hae
      exact ⟨ha, hc⟩
    · rw [if_neg hc] at hfa
      cases hfa
  · rintro ⟨he, hc⟩
    exact ⟨e, he, by rw [if_pos hc]⟩

/-! ## ResultSink store: aggregation per path, key uniqueness -/

lemma storeLookup_push (s : Store) (r : SearchResult) (q : Str) :
    storeLookup (SearchResultContainer.push s r) q
      = if r.entry.path = q then storeLookup s q ++ [(r.substring, r.id)]
        else storeLookup s q := by
  induction s with
  | nil =>
    by_cases h : r.entry.path = q
    · simp [SearchResultContainer.push, storeLookup, h]
    · simp [SearchResultContainer.push, storeLookup, h]
  | cons head rest ih =>
    obtain ⟨p, vs⟩ := head
    by_cases hp : p = r.entry.path
    · subst hp
      by_cases hq : r.entry.path = q
      · simp [SearchResultContainer.push, storeLookup, hq]
      · simp [SearchResultContainer.push, storeLookup, hq]
    · by_cases hq : p = q
      · subst hq
        have hne : r.entry.path ≠ p := fun h => hp h.symm
        simp [SearchResultContainer.push, storeLookup, hp, hne]
      · simp [SearchResultContainer.push, storeLookup, hp, hq, ih]

lemma storeLookup_recordAll (rs : List SearchResult) :
    ∀ (s : Store) (q : Str),
      storeLookup (recordAll s rs) q
        = storeLookup s q
            ++ rs.filterMap (fun r =>
                if r.entry.path = q then some (r.substring, r.id) else none) := by
  induction rs with
  | nil => intro s q; simp [recordAll]
  | cons r rs ih =>
    intro s q
    rw [recordAll, List.foldl_cons]
    have hrec := ih (SearchResultContainer.push s r) q
    rw [recordAll] at hrec
    rw [hrec, storeLookup_push]
    by_cases h : r.entry.path = q
    · simp [List.filterMap_cons, h, List.append_assoc]
    · simp [List.filterMap_cons, h]

lemma storeKeys_cons (p : Str) (vs : List (Str × Nat)) (rest : Store) :
    storeKeys ((p, vs) :: rest) = p :: storeKeys rest := rfl

lemma storeKeys_push (s : Store) (r : SearchResult) :
    storeKeys (SearchResultContainer.push s r)
      = if r.entry.path ∈ storeKeys s then storeKeys s
        else storeKeys s ++ [r.entry.path] := by
  induction s with
  | nil => simp [SearchResultContainer.push, storeKeys]
  | cons head rest ih =>
    obtain ⟨p, vs⟩ := head
    by_cases hp : p = r.entry.path
    · subst hp
      simp [SearchResultContainer.push, storeKeys_cons, List.mem_cons]
    · have hp2 : ¬ (r.entry.path = p) := fun h => hp h.symm
      by_cases hm : r.entry.path ∈ storeKeys rest
      · simp [SearchResultContainer.push, storeKeys_cons, List.mem_cons, hp, hp2, hm, ih]
      · simp [SearchResultContainer.push, storeKeys_cons, List.mem_cons, hp, hp2, hm, ih]

lemma storeKeys_nodup_push (s : Store) (r : SearchResult)
    (h : (storeKeys s).Nodup) :
    (storeKeys (SearchResultContainer.push s r)).Nodup := by
  rw [storeKeys_push]
  by_cases hm : r.entry.path ∈ storeKeys s
  · rw [if_pos hm]; exact h
  · rw [if_neg hm, List.nodup_append]
    refine ⟨h, List.nodup_singleton _, ?_⟩
    intro a ha hb
    rw [List.mem_singleton] at hb
    subst hb
    exact hm ha

lemma storeKeys_nodup_recordAll (rs : List SearchResult) :
    ∀ s : Store, (storeKeys s).Nodup → (storeKeys (recordAll s rs)).Nodup := by
  induction rs with
  | nil => intro s h; simpa [recordAll] using h
  | cons r rs ih =>
    intro s h
    rw [recordAll, List.foldl_cons]
    have hrec := ih (SearchResultContainer.push s r) (storeKeys_nodup_push s r h)
    rw [recordAll] at hrec
    exact hrec

/-! ## TreeWalker: push trace, ordering, cancellation -/

lemma shouldContinueAt_mono (stopAt : Option Nat) (i j : Nat) (hji : j ≤ i)
    (hi : shouldContinueAt stopAt i = true) :
    shouldContinueAt stopAt j = true := by
  cases stopAt with
  | none => rfl
  | some k =>
    simp [shouldContinueAt] at hi ⊢
    omega

lemma listPathsAux_entryIdx_ge (n : Nat) (stopAt : Option Nat) :
    ∀ (l : List DirEntry) (i0 : Nat) (ev : PushEvent),
      ev ∈ (PathFinder.listPathsAux n stopAt i0 l).1 → i0 ≤ ev.entryIdx := by
  intro l
  induction l with
  | nil => intro i0 ev hev; simp [PathFinder.listPathsAux] at hev
  | cons e rest ih =>
    intro i0 ev hev
    by_cases hc : shouldContinueAt stopAt i0 = true
    · simp only [PathFinder.listPathsAux] at hev
      rw [if_pos hc] at hev
      dsimp only at hev
      rcases List.mem_append.mp hev with hev | hev
      · by_cases hd : e.isDirectory = true
        · rw [if_pos hd] at hev
          cases hev
        · rw [if_neg hd] at hev
          rcases List.mem_map.mp hev with ⟨w, hw, rfl⟩
          exact Nat.le_refl i0
      · exact Nat.le_of_succ_le (ih (i0 + 1) ev hev)
    · simp only [PathFinder.listPathsAux] at hev
      rw [if_neg hc] at hev
      dsimp only at hev
      simp at hev

lemma listPathsAux_pairwise (n : Nat) (stopAt : Option Nat) :
    ∀ (l : List DirEntry) (i0 : Nat),
      ((PathFinder.listPathsAux n stopAt i0 l).1).Pairwise lexBefore := by
  intro l
  induction l with
  | nil => intro i0; simp [PathFinder.listPathsAux]
  | cons e rest ih =>
    intro i0
    by_cases hc : shouldContinueAt stopAt i0 = true
    · simp only [PathFinder.listPathsAux]
      rw [if_pos hc]
      dsimp only
      rw [List.pairwise_append]
      refine ⟨?_, ih (i0 + 1), ?_⟩
      · by_cases hd : e.isDirectory = true
        · rw [if_pos hd]; exact List.Pairwise.nil
        · rw [if_neg hd]
          exact (List.pairwise_lt_range n).map _ (fun a b hab => Or.inr ⟨rfl, hab⟩)
      · intro a ha b hb
        have hb1 : i0 + 1 ≤ b.entryIdx :=
          listPathsAux_entryIdx_ge n stopAt rest (i0 + 1) b hb
        have ha1 : a.entryIdx = i0 := by
          by_cases hd : e.isDirectory = true
          · rw [if_pos hd] at ha; cases ha
          · rw [if_neg hd] at ha
            rcases List.mem_map.mp ha with ⟨w, hw, rfl⟩
            rfl
        exact Or.inl (by omega)
    · simp only [PathFinder.listPathsAux]
      rw [if_neg hc]
      dsimp only
      exact List.Pairwise.nil

lemma listPathsAux_mem (n : Nat) (stopAt : Option Nat) :
    ∀ (l : List DirEntry) (i0 d : Nat) (e : DirEntry) (w : Nat),
      l[d]? = some e →
      (∀ j, j ≤ d → shouldContinueAt stopAt (i0 + j) = true) →
      e.isDirectory = false → w < n →
      PushEvent.mk (i0 + d) w e ∈ (PathFinder.listPathsAux n stopAt i0 l).1 := by
  intro l
  induction l with
  | nil =>
    intro i0 d e w hget
    simp at hget
  | cons a rest ih =>
    intro i0 d e w hget hvis hdir hw
    have hc : shouldContinueAt stopAt i0 = true := by
      have h0 := hvis 0 (Nat.zero_le d)
      simpa using h0
    simp only [PathFinder.listPathsAux]
    rw [if_pos hc]
    dsimp only
    cases d with
    | zero =>
      have hae : a = e := by simpa using hget
      subst hae
      rw [Nat.add_zero]
      refine List.mem_append.mpr (Or.inl ?_)
      rw [if_neg (by simp [hdir])]
      exact List.mem_map.mpr ⟨w, List.mem_range.mpr hw, rfl⟩
    | succ d2 =>
      have hget2 : rest[d2]? = some e := by simpa using hget
      have hvis2 : ∀ j, j ≤ d2 → shouldContinueAt stopAt ((i0 + 1) + j) = true := by
        intro j hj
        have := hvis (j + 1) (Nat.succ_le_succ hj)
        have heq : i0 + (j + 1) = (i0 + 1) + j := by omega
        rwa [heq] at this
      have hmem := ih (i0 + 1) d2 e w hget2 hvis2 hdir hw
      have heq : i0 + (d2 + 1) = (i0 + 1) + d2 := by omega
      rw [heq]
      exact List.mem_append.mpr (Or.inr hmem)

lemma listPathsAux_stop_ret (n k : Nat) :
    ∀ (l : List DirEntry) (i0 : Nat), i0 ≤ k → k < i0 + l.length →
      (PathFinder.listPathsAux n (some k) i0 l).2 = 1 := by
  intro l
  induction l with
  | nil =>
    intro i0 h1 h2
    exfalso
    simp at h2
    omega
  | cons e rest ih =>
    intro i0 h1 h2
    by_cases hik : i0 < k
    · have hc : shouldContinueAt (some k) i0 = true := by
        simp [shouldContinueAt, hik]
      simp only [PathFinder.listPathsAux]
      rw [if_pos hc]
      dsimp only
      apply ih (i0 + 1)
      · omega
      · simp at h2 ⊢
        omega
    · have hc : ¬ (shouldContinueAt (some k) i0 = true) := by
        simp [shouldContinueAt]
        omega
      simp only [PathFinder.listPathsAux]
      rw [if_neg hc]

lemma listPathsAux_none_ret (n : Nat) :
    ∀ (l : List DirEntry) (i0 : Nat),
      (PathFinder.listPathsAux n none i0 l).2 = 0 := by
  intro l
  induction l with
  | nil => intro i0; rfl
  | cons e rest ih =>
    intro i0
    have hc : shouldContinueAt none i0 = true := rfl
    simp only [PathFinder.listPathsAux]
    rw [if_pos hc]
    dsimp only
    exact ih (i0 + 1)

lemma listPathsAux_stop_bound (n k : Nat) :
    ∀ (l : List DirEntry) (i0 : Nat) (ev : PushEvent),
      ev ∈ (PathFinder.listPathsAux n (some k) i0 l).1 → ev.entryIdx < k := by
  intro l
  induction l with
  | nil => intro i0 ev hev; simp [PathFinder.listPathsAux] at hev
  | cons e rest ih =>
    intro i0 ev hev
    by_cases hik : i0 < k
    · have hc : shouldContinueAt (some k) i0 = true := by
        simp [shouldContinueAt, hik]
      simp only [PathFinder.listPathsAux] at hev
      rw [if_pos hc] at hev
      dsimp only at hev
      rcases List.mem_append.mp hev with hev | hev
      · by_cases hd : e.isDirectory = true
        · rw [if_pos hd] at hev
          cases hev
        · rw [if_neg hd] at hev
          rcases List.mem_map.mp hev with ⟨w, hw, rfl⟩
          exact hik
      · exact ih (i0 + 1) ev hev
    · have hc : ¬ (shouldContinueAt (some k) i0 = true) := by
        simp [shouldContinueAt]
        omega
      simp only [PathFinder.listPathsAux] at hev
      rw [if_neg hc] at hev
      dsimp only at hev
      simp at hev

lemma listPathsAux_no_dir (n : Nat) (stopAt : Option Nat) :
    ∀ (l : List DirEntry) (i0 : Nat) (ev : PushEvent),
      ev ∈ (PathFinder.listPathsAux n stopAt i0 l).1 → ev.entry.isDirectory = false := by
  intro l
  induction l with
  | nil => intro i0 ev hev; simp [PathFinder.listPathsAux] at hev
  | cons e rest ih =>
    intro i0 ev hev
    by_cases hc : shouldContinueAt stopAt i0 = true
    · simp only [PathFinder.listPathsAux] at hev
      rw [if_pos hc] at hev
      dsimp only at hev
      rcases List.mem_append.mp hev with hev | hev
      · by_cases hd : e.isDirectory = true
        · rw [if_pos hd] at hev
          cases hev
        · rw [if_neg hd] at hev
          rcases List.mem_map.mp hev with ⟨w, hw, rfl⟩
          exact Bool.not_eq_true _ ▸ (by simpa using hd)
      · exact ih (i0 + 1) ev hev
    · simp only [PathFinder.listPathsAux] at hev
      rw [if_neg hc] at hev
      dsimp only at hev
      simp at hev

/-! ## Coordinator shutdown: joined versus detached units -/

lemma mem_joinedUnits (ops : List ThreadOp) (u : ConcUnit) :
    u ∈ joinedUnits ops ↔ ThreadOp.joinOp u ∈ ops := by
  rw [joinedUnits, List.mem_filterMap]
  constructor
  · rintro ⟨op, hop, heq⟩
    cases op with
    | joinOp v =>
      have hv : v = u := Option.some.inj heq
      subst hv
      exact hop
    | detachOp v => cases heq
  · intro h
    exact ⟨ThreadOp.joinOp u, h, rfl⟩

/-! ## Claim theorems -/

/-- C1 counterexample: with two filter workers, not every concurrent unit
started by do_main is joined by the shutdown tail — the interactive
command-reader thread is absent from the joined units (ui_thread.detach()
at src/main.cpp line 401), so its termination is not waited for. -/
theorem C1_counterexample :
    ¬ (∀ u ∈ startedUnits 2, u ∈ joinedUnits (shutdownSequence 2)) := by
  decide

/-- C1 (amended): when the shutdown tail of do_main returns, the walker
thread, every filter-worker thread, and the periodic-flush thread have
been joined — their termination observed — while the interactive
command-reader thread is detached, not joined, so the sequence can return
with it still running. -/
theorem C1_shutdown_joins_all_but_ui (n : Nat) (u : ConcUnit)
    (hu : u ∈ startedUnits n) (hne : u ≠ ConcUnit.uiThread) :
    u ∈ joinedUnits (shutdownSequence n)
    ∧ ConcUnit.uiThread ∉ joinedUnits (shutdownSequence n) := by
  constructor
  · rw [mem_joinedUnits]
    simp only [startedUnits, List.mem_cons, List.mem_append, List.mem_map,
      List.mem_range] at hu
    rcases hu with rfl | ⟨i, hi, rfl⟩ | rfl | rfl | h0
    · simp [shutdownSequence]
    · simp only [shutdownSequence, List.mem_cons, List.mem_append, List.mem_map,
        List.mem_range]
      exact Or.inr (Or.inl ⟨i, hi, rfl⟩)
    · simp [shutdownSequence]
    · exact absurd rfl hne
    · cases h0
  · rw [mem_joinedUnits]
    intro h
    simp [shutdownSequence] at h

/-- C1 witness: concrete instance for the walker unit with two workers. -/
theorem C1_witness :
    ConcUnit.searchThread ∈ startedUnits 2
    ∧ ConcUnit.searchThread ≠ ConcUnit.uiThread
    ∧ (ConcUnit.searchThread ∈ joinedUnits (shutdownSequence 2)
       ∧ ConcUnit.uiThread ∉ joinedUnits (shutdownSequence 2)) :=
  ⟨by decide, by decide,
    C1_shutdown_joins_all_but_ui 2 ConcUnit.searchThread (by decide) (by decide)⟩

/-- C2 counterexample: in SearchResultContainer::dump the emission of the
snapshot to std::cout executes while the store mutex is held, not outside
the lock as the claim states. -/
theorem C2_counterexample :
    DumpStep.emitSnapshot ∈ stepsUnderLock dumpTrace false := by
  decide

/-- C2 (amended): the store lock is held for the whole body of dump —
snapshot formatting, store clearing, and snapshot emission all execute
under the lock — so a concurrent record (push) call can be blocked for
the duration of the emission, not only of a snapshot-and-clear swap. -/
theorem C2_lock_held_through_emit :
    stepsUnderLock dumpTrace false
      = [DumpStep.formatSnapshot, DumpStep.clearStore, DumpStep.emitSnapshot] := by
  decide

/-- C3 counterexample: a walk stopped early returns the "stopped early"
status 1 from list_paths, yet do_main still returns EXIT_SUCCESS (0) —
the failure exit status the claim requires does not occur. -/
theorem C3_counterexample :
    (PathFinder.list_paths [DirEntry.mk ['a'] ['a'] false] 1 (some 0)).2 = 1
    ∧ do_main_return
        (PathFinder.list_paths [DirEntry.mk ['a'] ['a'] false] 1 (some 0)).2 = 0 := by
  decide

/-- C3 (amended): do_main returns EXIT_SUCCESS whatever the walker's
result; the walker's "stopped early" outcome is never reflected in the
returned status because search_future's value is never retrieved. -/
theorem C3_exit_always_success (r : Int) : do_main_return r = 0 := rfl

/-- C4: a filter worker with target S pushes the match record
(entry, S, its own identity) during a drain of queue q iff the entry is
in q and its filename contains S as a contiguous case-sensitive
substring; and every entry in the walker's push trace — hence everything
that ever reaches a worker queue — is a non-directory. -/
theorem C4_match_iff_substring (S : Str) (wid : Nat) (q : List DirEntry)
    (e : DirEntry) (entries : List DirEntry) (n : Nat) (stopAt : Option Nat) :
    (SearchResult.mk e S wid ∈ (Processor.process S wid q).1
      ↔ e ∈ q ∧ ∃ u v, e.filename = u ++ S ++ v)
    ∧ (PathFinder.list_paths entries n stopAt).1.all
        (fun ev => !ev.entry.isDirectory) = true := by
  constructor
  · have h1 := mem_matchRecords S wid e q
    have h2 := containsTarget_eq_true_iff e.filename S
    rw [Processor.process_eq]
    exact h1.trans (and_congr_right (fun _ => h2))
  · rw [List.all_eq_true]
    intro ev hev
    have hev2 : ev ∈ (PathFinder.listPathsAux n stopAt 0 entries).1 := hev
    have hd := listPathsAux_no_dir n stopAt entries 0 ev hev2
    simp [hd]

/-- C4 witness: concrete instantiation with a matching file and a
directory entry in the walk. -/
theorem C4_witness :
    (SearchResult.mk (DirEntry.mk ['a'] ['a'] false) ['a'] 0
        ∈ (Processor.process ['a'] 0 [DirEntry.mk ['a'] ['a'] false]).1
      ↔ DirEntry.mk ['a'] ['a'] false ∈ [DirEntry.mk ['a'] ['a'] false]
        ∧ ∃ u v, (DirEntry.mk ['a'] ['a'] false).filename = u ++ ['a'] ++ v)
    ∧ (PathFinder.list_paths
          [DirEntry.mk ['a'] ['a'] false, DirEntry.mk ['b'] ['b'] true]
          2 none).1.all (fun ev => !ev.entry.isDirectory) = true :=
  C4_match_iff_substring ['a'] 0 [DirEntry.mk ['a'] ['a'] false]
    (DirEntry.mk ['a'] ['a'] false)
    [DirEntry.mk ['a'] ['a'] false, DirEntry.mk ['b'] ['b'] true] 2 none

/-- C5: after a dump the store is empty; a dump immediately following a
dump, with no record in between, emits an empty snapshot; and a
periodic-flush iteration whose timer has expired over an empty store
emits the empty snapshot (a no-op drain) while still resetting the timer
exactly as a non-empty flush would. -/
theorem C5_flush_drains (s : Store) (ms resolution elapsed : Nat)
    (h : ms < elapsed) :
    (SearchResultContainer.dump s).2 = []
    ∧ (SearchResultContainer.dump (SearchResultContainer.dump s).2).1 = []
    ∧ periodicDumpStep ms resolution (FlushLoopState.mk [] elapsed)
        = (FlushLoopState.mk [] resolution, some []) := by
  refine ⟨rfl, rfl, ?_⟩
  simp [periodicDumpStep, SearchResultContainer.dump, h]

/-- C5 witness: concrete store, interval and elapsed time. -/
theorem C5_witness :
    2 < 5
    ∧ ((SearchResultContainer.dump [(['p'], [(['s'], 0)])]).2 = []
       ∧ (SearchResultContainer.dump
            (SearchResultContainer.dump [(['p'], [(['s'], 0)])]).2).1 = []
       ∧ periodicDumpStep 2 3 (FlushLoopState.mk [] 5)
           = (FlushLoopState.mk [] 3, some [])) :=
  ⟨by decide, C5_flush_drains [(['p'], [(['s'], 0)])] 2 3 5 (by decide)⟩

/-- C6: recording any serialisation of match pushes into an initially
empty store yields, under every path key, exactly the (substring, worker)
pairs pushed for that path, in arrival order — each exactly once — and
the store's keys are pairwise distinct, so a path appears at most once as
a key per flush interval. -/
theorem C6_store_aggregates (rs : List SearchResult) (p : Str) :
    storeLookup (recordAll [] rs) p
      = rs.filterMap (fun r =>
          if r.entry.path = p then some (r.substring, r.id) else none)
    ∧ (storeKeys (recordAll [] rs)).Nodup := by
  constructor
  · have h := storeLookup_recordAll rs [] p
    simpa [storeLookup] using h
  · exact storeKeys_nodup_recordAll rs [] (by simp [storeKeys])

/-- C7: the walker's push trace is strictly ordered — all pushes of one
entry, to workers in registration order, precede every push of any later
entry, so the fan-out for an entry completes before the walker advances —
and every visited non-directory entry is pushed to every registered
worker. -/
theorem C7_fanout_ordered (entries : List DirEntry) (n : Nat)
    (stopAt : Option Nat) (i w : Nat) (e : DirEntry)
    (hget : entries[i]? = some e)
    (hvis : shouldContinueAt stopAt i = true)
    (hdir : e.isDirectory = false)
    (hw : w < n) :
    ((PathFinder.list_paths entries n stopAt).1).Pairwise lexBefore
    ∧ PushEvent.mk i w e ∈ (PathFinder.list_paths entries n stopAt).1 := by
  constructor
  · exact listPathsAux_pairwise n stopAt entries 0
  · have hvis2 : ∀ j, j ≤ i → shouldContinueAt stopAt (0 + j) = true := by
      intro j hj
      have hm := shouldContinueAt_mono stopAt i j hj hvis
      simpa using hm
    have h := listPathsAux_mem n stopAt entries 0 i e w hget hvis2 hdir hw
    simpa [PathFinder.list_paths] using h

/-- C7 witness: one file, one worker, no stop requested. -/
theorem C7_witness :
    ([DirEntry.mk ['a'] ['a'] false] : List DirEntry)[0]?
        = some (DirEntry.mk ['a'] ['a'] false)
    ∧ shouldContinueAt none 0 = true
    ∧ (DirEntry.mk ['a'] ['a'] false).isDirectory = false
    ∧ 0 < 1
    ∧ (((PathFinder.list_paths [DirEntry.mk ['a'] ['a'] false] 1 none).1).Pairwise lexBefore
       ∧ PushEvent.mk 0 0 (DirEntry.mk ['a'] ['a'] false)
           ∈ (PathFinder.list_paths [DirEntry.mk ['a'] ['a'] false] 1 none).1) :=
  ⟨by decide, by decide, by decide, by decide,
    C7_fanout_ordered [DirEntry.mk ['a'] ['a'] false] 1 none 0 0
      (DirEntry.mk ['a'] ['a'] false) (by decide) (by decide) (by decide) (by decide)⟩

/-- C8: with the stop flag observed false from check index k on (k within
the entry sequence), list_paths returns the "stopped early" status 1 and
pushes no entry with index at or past k; without a stop it returns the
"completed" status 0, and the two statuses are distinct. -/
theorem C8_stop_is_distinct_early_return (entries : List DirEntry) (n k : Nat)
    (hk : k < entries.length) :
    (PathFinder.list_paths entries n (some k)).2 = 1
    ∧ (PathFinder.list_paths entries n (some k)).1.all
        (fun ev => decide (ev.entryIdx < k)) = true
    ∧ (PathFinder.list_paths entries n none).2 = 0
    ∧ (PathFinder.list_paths entries n (some k)).2
        ≠ (PathFinder.list_paths entries n none).2 := by
  have h1 : (PathFinder.list_paths entries n (some k)).2 = 1 := by
    have hr := listPathsAux_stop_ret n k entries 0 (Nat.zero_le k) (by simpa using hk)
    simpa [PathFinder.list_paths] using hr
  have h3 : (PathFinder.list_paths entries n none).2 = 0 :=
    listPathsAux_none_ret n entries 0
  refine ⟨h1, ?_, h3, ?_⟩
  · rw [List.all_eq_true]
    intro ev hev
    have hev2 : ev ∈ (PathFinder.listPathsAux n (some k) 0 entries).1 := hev
    have hb := listPathsAux_stop_bound n k entries 0 ev hev2
    simpa using hb
  · rw [h1, h3]
    decide

/-- C8 witness: a stop observed before the first entry of a one-entry
walk. -/
theorem C8_witness :
    0 < 1
    ∧ ((PathFinder.list_paths [DirEntry.mk ['a'] ['a'] false] 1 (some 0)).2 = 1
       ∧ (PathFinder.list_paths [DirEntry.mk ['a'] ['a'] false] 1 (some 0)).1.all
           (fun ev => decide (ev.entryIdx < 0)) = true
       ∧ (PathFinder.list_paths [DirEntry.mk ['a'] ['a'] false] 1 none).2 = 0
       ∧ (PathFinder.list_paths [DirEntry.mk ['a'] ['a'] false] 1 (some 0)).2
           ≠ (PathFinder.list_paths [DirEntry.mk ['a'] ['a'] false] 1 none).2) :=
  ⟨by decide,
    C8_stop_is_distinct_early_return [DirEntry.mk ['a'] ['a'] false] 1 0 (by decide)⟩

/-- C9: one drain pass of Processor::process consumes the whole queue
observed at pass start — the queue is empty afterwards — and the records
pushed to the container are exactly the matching entries in FIFO
(dequeue) order, each exactly once. -/
theorem C9_drain_fifo (t : Str) (wid : Nat) (q : List DirEntry) :
    (Processor.process t wid q).2 = []
    ∧ (Processor.process t wid q).1.map (fun r => r.entry)
        = q.filter (fun e => containsTarget e.filename t) := by
  rw [Processor.process_eq]
  exact ⟨rfl, matchRecords_map_entry t wid q⟩

/-- C10: with the empty target substring the containment test accepts
every filename, including the empty one, so a drain pass records every
dequeued entry as a match. -/
theorem C10_empty_target_matches_all (f : Str) (wid : Nat) (q : List DirEntry) :
    containsTarget f [] = true
    ∧ (Processor.process [] wid q).1.map (fun r => r.entry) = q := by
  refine ⟨containsTarget_nil_right f, ?_⟩
  have h2 : (Processor.process [] wid q).1.map (fun r => r.entry)
      = q.filter (fun e => containsTarget e.filename []) := by
    rw [Processor.process_eq]
    exact matchRecords_map_entry [] wid q
  rw [h2]
  apply List.filter_eq_self.mpr
  intro a ha
  exact containsTarget_nil_right a.filename
